import Mathlib

/-
  Verification development for the EPUB Traditional-to-Simplified conversion
  pipeline (source file f_to_j.py).

  The embedding works over `List Char` for all textual content and paths, so
  that every definition is executable and every concrete statement decidable.
  The external conversion table (opencc converter.convert) is modelled as an
  arbitrary function on character lists; the external HTML tree library
  (BeautifulSoup) is modelled by an explicit document tree type, with the
  per-node rewriting loop of convert_html_content embedded over that tree.
-/

set_option autoImplicit false
set_option maxRecDepth 20000

abbrev Str := List Char

/-! ## Text Rewriter, XML path (convert_xml_content)

The source uses `re.sub(r">([^<>]+)<", replace_text, content)`.  A match of
that pattern starts at a character ">", continues with a maximal nonempty run
of characters that are neither "<" nor ">", and ends at a character "<"; the
scan is left to right with non-overlapping matches, and after a failed attempt
the engine advances one position (no match can start strictly inside a run,
because runs contain no ">").  `xmlSplitGo` reproduces that scan, cutting the
input into raw pieces and group pieces; the fuel argument only serves
termination and is in excess whenever it bounds the length of the input. -/

/-- True for characters matched by the regex class `[^<>]`. -/
def noAngle (c : Char) : Bool := c != '<' && c != '>'

/-- One piece of the scanned content: either a raw stretch kept verbatim, or
the group of a match `>t<` (the piece stands for the full match, delimiters
included). -/
inductive XPiece where
  | raw (cs : Str)
  | grp (t : Str)
  deriving DecidableEq, Repr

/-- After a ">" the regex matches precisely when the maximal run of `[^<>]`
characters that follows is nonempty and is terminated by a "<". -/
def xmlMatchCond (rest : Str) : Prop :=
  rest.takeWhile noAngle ≠ [] ∧ (rest.dropWhile noAngle).head? = some '<'

instance (rest : Str) : Decidable (xmlMatchCond rest) := by
  unfold xmlMatchCond; infer_instance

/-- The left-to-right scan of `re.sub(r">([^<>]+)<", ..., content)`. -/
def xmlSplitGo : Nat → Str → List XPiece
  | 0, _ => []
  | _ + 1, [] => []
  | n + 1, c :: rest =>
    if c = '>' then
      if xmlMatchCond rest then
        XPiece.grp (rest.takeWhile noAngle) :: xmlSplitGo n (rest.dropWhile noAngle).tail
      else
        XPiece.raw [c] :: xmlSplitGo n rest
    else
      XPiece.raw [c] :: xmlSplitGo n rest

def xmlSplit (cs : Str) : List XPiece := xmlSplitGo cs.length cs

/-- The characters a piece stands for in the input. -/
def pieceStr : XPiece → Str
  | .raw cs => cs
  | .grp t => '>' :: (t ++ ['<'])

def joinPieces (ps : List XPiece) : Str :=
  ps.foldr (fun p acc => pieceStr p ++ acc) []

/-- Whitespace as matched by `\s` in the source regexes (ASCII part; the
model does not cover exotic Unicode whitespace, which no claim exercises). -/
def isPySpace (c : Char) : Bool :=
  c = ' ' || c = '\t' || c = '\n' || c = '\r' || c = '\x0b' || c = '\x0c'

/-- The character class of the skip test `re.match(r"^[\s\d.,:;!?]+$", text)`
in replace_text: whitespace, decimal digits, and exactly the six punctuation
marks written in the source. -/
def isCodeSkipChar (c : Char) : Bool :=
  isPySpace c || c.isDigit || c ∈ ['.', ',', ':', ';', '!', '?']

/-- The test `re.match(r"^[\s\d.,:;!?]+$", text)` succeeds. -/
def codeSkippable (t : Str) : Bool := !t.isEmpty && t.all isCodeSkipChar

/-- What replace_text leaves between the delimiters: the group is kept when
the skip test fires or when conversion produces no change, otherwise the
converted text is substituted. -/
def groupOut (f : Str → Str) (t : Str) : Str :=
  if codeSkippable t then t else if f t = t then t else f t

def pieceOut (f : Str → Str) : XPiece → XPiece
  | .raw cs => .raw cs
  | .grp t => .grp (groupOut f t)

/-- The embedding of `re.sub(r">([^<>]+)<", replace_text, content)`:
rewrite each matched group in place, keep everything else. -/
def xmlSub (f : Str → Str) (cs : Str) : Str :=
  joinPieces ((xmlSplit cs).map (pieceOut f))

/-- All matched groups of the scan, in order. -/
def xmlGroups (cs : Str) : List Str :=
  (xmlSplit cs).filterMap fun p =>
    match p with
    | .grp t => some t
    | .raw _ => none

/-! ### The XML declaration search

`re.search(r"<\?xml[^>]+\?>", content)`: the match starts with the literal
`<?xml`, then at least one character other than ">", then the literal `?>`.
Because the run after `<?xml` may not contain ">", a match starting at a given
position exists precisely when the maximal run of non-">" characters after
`<?xml` is of length at least two, ends in "?", and is followed by ">". -/

def xmlDeclLit : Str := ['<', '?', 'x', 'm', 'l']

def declMatchAt (cs : Str) : Option Str :=
  if xmlDeclLit.isPrefixOf cs then
    let rest := cs.drop 5
    let body := rest.takeWhile (fun c => c != '>')
    if 2 ≤ body.length ∧ body.getLast? = some '?' ∧
        (rest.drop body.length).head? = some '>' then
      some (xmlDeclLit ++ body ++ ['>'])
    else none
  else none

/-- Leftmost-match search: try each position left to right. -/
def scanFirstL (m : Str → Option Str) : Str → Option Str
  | [] => none
  | c :: rest =>
    match m (c :: rest) with
    | some r => some r
    | none => scanFirstL m rest

def declSearch (cs : Str) : Option Str := scanFirstL declMatchAt cs

def startsWithXml (cs : Str) : Bool := xmlDeclLit.isPrefixOf cs

/-- Result of one text-asset rewrite: the bytes the file holds afterwards,
and the changed flag the function returns. -/
structure ConvOut where
  content : Str
  changed : Bool
  deriving DecidableEq, Repr

/-- The embedding of convert_xml_content: run the substitution; when nothing
changed the file is not written (it keeps its original content) and the flag
is false; when something changed, the new content is written back, with the
previously found XML declaration prepended whenever the new content does not
start with `<?xml`. -/
def convertXmlContent (f : Str → Str) (cs : Str) : ConvOut :=
  let decl := declSearch cs
  let nc := xmlSub f cs
  if nc = cs then ⟨cs, false⟩
  else
    match decl with
    | some d => if startsWithXml nc then ⟨nc, true⟩ else ⟨d ++ '\n' :: nc, true⟩
    | none => ⟨nc, true⟩

/-- The markup skeleton of a content string: the scan of the rewriter with
every matched group blanked.  Two contents with equal skeletons agree on every
byte outside the maximal runs strictly between a ">" and the next "<". -/
def blankPiece : XPiece → XPiece
  | .raw cs => .raw cs
  | .grp _ => .grp []

def skel (cs : Str) : Str := joinPieces ((xmlSplit cs).map blankPiece)

/-! ## Scanner equations

The fueled scanner is insensitive to the exact fuel as soon as the fuel
bounds the input length; from that, clean unfolding equations for
`xmlSplit`, `xmlSub` and `skel` follow. -/

/-! ## Text Rewriter, HTML path (convert_html_content)

The BeautifulSoup parse of an HTML asset is modelled by an explicit document
tree (elements with a tag, attributes and children, plus text nodes).  The
loop of convert_html_content iterates over every text node in document
order; a node whose direct parent element is named script or style is kept,
every other node is passed to the converter and replaced when the converted
text differs; the changed flag is the disjunction over all nodes.  The write
back to disk happens only when the flag is true. -/

mutual
inductive HDoc where
  | text (s : Str) : HDoc
  | elem (tag : Str) (attrs : List (Str × Str)) (children : HForest) : HDoc
inductive HForest where
  | nil : HForest
  | cons (head : HDoc) (tail : HForest) : HForest
end

/-- Tags whose direct text children are never rewritten
(`parent.name in ["script", "style"]`). -/
def scriptStyle : List Str := [['s', 'c', 'r', 'i', 'p', 't'], ['s', 't', 'y', 'l', 'e']]

/-- Name BeautifulSoup gives to the root: text nodes at top level have it as
their parent, and it is not in the skip list. -/
def docRootTag : Str := ['[', 'd', 'o', 'c', 'u', 'm', 'e', 'n', 't', ']']

mutual
def rewriteNode (f : Str → Str) (parent : Str) : HDoc → HDoc × Bool
  | .text s =>
    if parent ∈ scriptStyle then (.text s, false)
    else if f s = s then (.text s, false)
    else (.text (f s), true)
  | .elem tag attrs children =>
    let r := rewriteForest f tag children
    (.elem tag attrs r.1, r.2)
def rewriteForest (f : Str → Str) (parent : Str) : HForest → HForest × Bool
  | .nil => (.nil, false)
  | .cons d t =>
    let a := rewriteNode f parent d
    let b := rewriteForest f parent t
    (.cons a.1 b.1, a.2 || b.2)
end

/-- The whole-document rewrite of convert_html_content. -/
def convertHtmlDoc (f : Str → Str) (doc : HForest) : HForest × Bool :=
  rewriteForest f docRootTag doc

mutual
/-- Blank every text node: two trees with equal blankings have identical
tags, attribute lists and element structure. -/
def blankNode : HDoc → HDoc
  | .text _ => .text []
  | .elem tag attrs children => .elem tag attrs (blankForest children)
def blankForest : HForest → HForest
  | .nil => .nil
  | .cons d t => .cons (blankNode d) (blankForest t)
end

mutual
/-- The text nodes on which the loop attempts conversion, in document
order, with the given parent tag at the root. -/
def eligTextsN (parent : Str) : HDoc → List Str
  | .text s => if parent ∈ scriptStyle then [] else [s]
  | .elem tag _ children => eligTextsF tag children
def eligTextsF (parent : Str) : HForest → List Str
  | .nil => []
  | .cons d t => eligTextsN parent d ++ eligTextsF parent t
end

mutual
def blank_rewriteNode (f : Str → Str) (parent : Str) :
    ∀ d : HDoc, blankNode (rewriteNode f parent d).1 = blankNode d
  | .text s => by
    by_cases h1 : parent ∈ scriptStyle
    · simp [rewriteNode, h1]
    · by_cases h2 : f s = s
      · simp [rewriteNode, h1, h2]
      · simp [rewriteNode, h1, h2, blankNode]
  | .elem tag attrs children => by
    simp [rewriteNode, blankNode, blank_rewriteForest f tag children]
def blank_rewriteForest (f : Str → Str) (parent : Str) :
    ∀ h : HForest, blankForest (rewriteForest f parent h).1 = blankForest h
  | .nil => rfl
  | .cons d t => by
    simp [rewriteForest, blankForest, blank_rewriteNode f parent d,
      blank_rewriteForest f parent t]
end

mutual
def rewriteNode_id_of_elig (f : Str → Str) (parent : Str) :
    ∀ d : HDoc, (∀ s ∈ eligTextsN parent d, f s = s) → rewriteNode f parent d = (d, false)
  | .text s => by
    intro h
    by_cases h1 : parent ∈ scriptStyle
    · simp [rewriteNode, h1]
    · have hs : f s = s := h s (by simp [eligTextsN, h1])
      simp [rewriteNode, h1, hs]
  | .elem tag attrs children => by
    intro h
    have hc : rewriteForest f tag children = (children, false) :=
      rewriteForest_id_of_elig f tag children fun s hs => h s (by simpa [eligTextsN] using hs)
    simp [rewriteNode, hc]
def rewriteForest_id_of_elig (f : Str → Str) (parent : Str) :
    ∀ h : HForest, (∀ s ∈ eligTextsF parent h, f s = s) → rewriteForest f parent h = (h, false)
  | .nil => fun _ => rfl
  | .cons d t => by
    intro h
    have hd : rewriteNode f parent d = (d, false) :=
      rewriteNode_id_of_elig f parent d fun s hs => h s (by simp [eligTextsF, hs])
    have ht : rewriteForest f parent t = (t, false) :=
      rewriteForest_id_of_elig f parent t fun s hs => h s (by simp [eligTextsF, hs])
    simp [rewriteForest, hd, ht]
end

/-! ## Archive Packager (package_epub_safely, library branch)

The model covers the pure zipfile implementation of package_epub_safely (the
branch taken when no external zip tool is installed; the branch that shells
out to an external zip executable is an external-process invocation and is
outside the embedding).  A working tree is an association list from
slash-separated relative paths to contents; an archive is the ordered list of
written entries with their compression method. -/

inductive ZMethod where
  | stored
  | deflated
  deriving DecidableEq, Repr

structure ZEntry where
  path : Str
  method : ZMethod
  content : Str
  deriving DecidableEq, Repr

/-- Association-list lookup (first match), used for both working trees and
the file system model. -/
def lookupA {ν : Type} : List (Str × ν) → Str → Option ν
  | [], _ => none
  | (q, d) :: rest, p => if q = p then some d else lookupA rest p

/-- Write a file: update the entry in place if the path exists, else append. -/
def setA {ν : Type} : List (Str × ν) → Str → ν → List (Str × ν)
  | [], p, c => [(p, c)]
  | (q, d) :: rest, p, c => if q = p then (p, c) :: rest else (q, d) :: setA rest p c

abbrev WTree := List (Str × Str)

/-- The basename of a slash-separated relative path (`os.walk` hands the
source the plain file name, so the exclusion tests below see basenames). -/
def fileName (p : Str) : Str := (p.reverse.takeWhile (fun c => c != '/')).reverse

def junkNames : List Str :=
  [['.', 'D', 'S', '_', 'S', 't', 'o', 'r', 'e'],
   ['T', 'h', 'u', 'm', 'b', 's', '.', 'd', 'b']]

def mimetypeName : Str := ['m', 'i', 'm', 'e', 't', 'y', 'p', 'e']

def containerName : Str := "META-INF/container.xml".toList

def fixedMime : Str := "application/epub+zip".toList

/-- The copy loop of package_epub_safely: every file whose basename is a
transient OS artifact is dropped; then the mimetype file of the staging
directory is overwritten with the fixed marker bytes. -/
def stageTree (tree : WTree) : WTree :=
  setA (tree.filter fun e => !(junkNames.contains (fileName e.1))) mimetypeName fixedMime

/-- The zipfile branch of package_epub_safely: the mimetype entry is written
first, stored, with the fixed marker content just written to the staging
tree; then the walk adds every remaining file (again skipping OS artifacts
and any file whose basename is mimetype), storing META-INF/container.xml and
deflating everything else. -/
def packageEpub (tree : WTree) : List ZEntry :=
  ZEntry.mk mimetypeName ZMethod.stored fixedMime ::
    ((stageTree tree).filter fun e =>
        !((mimetypeName :: junkNames).contains (fileName e.1))).map fun e =>
      ZEntry.mk e.1 (if e.1 = containerName then ZMethod.stored else ZMethod.deflated) e.2

def mimeEntry : ZEntry := ZEntry.mk mimetypeName ZMethod.stored fixedMime

/-! ## Structure Validator (validate_epub_structure, create_container_xml) -/

/-- The literal `full-path="` of the locator regex. -/
def fpLit : Str := "full-path=\"".toList

/-- One position of the search `re.search(r"full-path=\"([^\"]+)\"", ...)`:
the literal, then a nonempty run without double quotes, then a quote; the
returned value is the captured group. -/
def fpMatchAt (cs : Str) : Option Str :=
  if fpLit.isPrefixOf cs then
    let rest := cs.drop fpLit.length
    let body := rest.takeWhile (fun c => c != '"')
    if body ≠ [] ∧ (rest.drop body.length).head? = some '"' then some body
    else none
  else none

def fullPathSearch (cs : Str) : Option Str := scanFirstL fpMatchAt cs

/-- The fixed part of the synthesized container.xml up to (and excluding)
the full-path attribute value. -/
def containerTemplateA : Str :=
  ("<?xml version=\"1.0\" encoding=\"UTF-8\"?>\n" ++
   "<container version=\"1.0\" xmlns=\"urn:oasis:names:tc:opendocument:xmlns:container\">\n" ++
   "    <rootfiles>\n" ++
   "        <rootfile ").toList

/-- The fixed part of the synthesized container.xml after the attribute
value. -/
def containerTemplateB : Str :=
  ("\" media-type=\"application/oebps-package+xml\"/>\n" ++
   "    </rootfiles>\n" ++
   "</container>").toList

/-- The content written by create_container_xml for a given opf path (the
f-string of the source, split around the spliced path). -/
def containerXmlContent (p : Str) : Str :=
  containerTemplateA ++ fpLit ++ p ++ containerTemplateB

/-- True when the path ends in .opf (the walk of validate_epub_structure
tests the plain file name, which is a suffix of the relative path). -/
def isOpfPath (p : Str) : Bool := ".opf".toList.isSuffixOf p

/-- The embedding of validate_epub_structure over a working tree: if the
mimetype file is absent the function returns validity at once (it will be
created later) without looking at the locator; otherwise a missing locator is
synthesized from the first discovered opf path when one exists; otherwise the
existing locator is parsed and its full-path target must exist. -/
def validateStructure (tree : WTree) : WTree × Bool :=
  if (lookupA tree mimetypeName).isNone then (tree, true)
  else
    match lookupA tree containerName with
    | none =>
      match (tree.map Prod.fst).filter isOpfPath with
      | [] => (tree, false)
      | p :: _ => (setA tree containerName (containerXmlContent p), true)
    | some c =>
      match fullPathSearch c with
      | some opf => (tree, (lookupA tree opf).isSome)
      | none => (tree, false)

/-! ## Pipeline Orchestrator (convert_epub)

The file system is an association list from paths to file data; a file is
either opaque bytes (which the zip reader rejects) or a well-formed archive
with its entry list.  The OpenCC initialisation and the BeautifulSoup HTML
rewrite are external collaborators: the former is assumed to succeed, the
latter is an arbitrary parameter `hr` giving the rewritten content and the
changed flag for an HTML asset.  Name derivation mirrors the Python
`str.replace` method (all occurrences, left to right). -/

inductive FileData where
  | bytes (s : Str)
  | zip (entries : List ZEntry)
  deriving DecidableEq, Repr

abbrev FS := List (Str × FileData)

def replAllGo : Nat → Str → Str → Str → Str
  | 0, s, _, _ => s
  | n + 1, s, pat, rep =>
    if pat.isPrefixOf s then rep ++ replAllGo n (s.drop pat.length) pat rep
    else
      match s with
      | [] => []
      | c :: rest => c :: replAllGo n rest pat rep

/-- Python str.replace with a nonempty pattern. -/
def replaceAll (s pat rep : Str) : Str := replAllGo s.length s pat rep

def epubExt : Str := ['.', 'e', 'p', 'u', 'b']

def backupName (input : Str) : Str := replaceAll input epubExt "_backup.epub".toList

def outName (input : Str) : Str := replaceAll input epubExt "_simplified.epub".toList

/-- zip_ref.extractall: materialize the entries as a working tree. -/
def extractTree (entries : List ZEntry) : WTree := entries.map fun e => (e.path, e.content)

def htmlExts : List Str := [".xhtml".toList, ".html".toList, ".htm".toList]

def xmlExts : List Str := [".xml".toList, ".opf".toList, ".ncx".toList]

def endsAnyL (p : Str) (exts : List Str) : Bool := exts.any fun e => e.isSuffixOf p

/-- The per-asset loop of convert_epub: HTML-family assets go through the
external tree-based rewriter `hr`, XML-family assets through
convert_xml_content, and every other file is untouched. -/
def convertAssets (hr : Str → Str × Bool) (f : Str → Str) (tree : WTree) : WTree :=
  tree.map fun a =>
    if endsAnyL a.1 htmlExts then (a.1, (hr a.2).1)
    else if endsAnyL a.1 xmlExts then (a.1, (convertXmlContent f a.2).content)
    else a

/-- ensure_mimetype_file: unconditionally write the fixed marker bytes. -/
def ensureMimetype (tree : WTree) : WTree := setA tree mimetypeName fixedMime

structure ConvertResult where
  fs : FS
  ok : Bool

/-- The embedding of convert_epub.  A backup copy of the source is made
unless the backup path already exists; a source that is not a valid archive
aborts with failure after the backup step; otherwise the tree is extracted,
validated (with possible locator synthesis), rewritten per asset, its
mimetype normalised, and packaged to the output path.  The final check of
the source (output exists and has positive size) always passes once the
archive has been written, since a zip container is never empty on disk. -/
def convertEpub (f : Str → Str) (hr : Str → Str × Bool) (fs : FS) (input : Str) :
    ConvertResult :=
  match lookupA fs input with
  | none => ⟨fs, false⟩
  | some src =>
    let fs1 := if (lookupA fs (backupName input)).isSome then fs
      else setA fs (backupName input) src
    match src with
    | .bytes _ => ⟨fs1, false⟩
    | .zip es =>
      let tree1 := (validateStructure (extractTree es)).1
      let tree3 := ensureMimetype (convertAssets hr f tree1)
      let fs2 := setA fs1 (outName input) (.zip (packageEpub tree3))
      ⟨fs2, true⟩

/-! ## Per-asset failure handling (the try block of the asset loop)

An unexpected error inside the rewrite of one asset is modelled by an
`Except` value whose error carries whatever content the file holds at raise
time (possibly partly rewritten).  The handler of convert_epub writes the
original bytes back; a normal outcome keeps the new content only when the
changed flag is set. -/

/-- The content of the asset file after the try/except of the per-asset
loop, given the original bytes and the outcome of the rewrite call. -/
def applyAsset (orig : Str) : Except Str (Str × Bool) → Str
  | .ok (c, true) => c
  | .ok (_, false) => orig
  | .error _ => orig

/-- The whole asset loop: each asset is processed independently with its own
try/except, so the loop always reaches every asset. -/
def runAssets (proc : Str → Str → Except Str (Str × Bool)) (assets : WTree) : WTree :=
  assets.map fun a => (a.1, applyAsset a.2 (proc a.1 a.2))

/-! ## Concrete instances used by witnesses and counterexamples -/

/-- The identity conversion table. -/
def idConv : Str → Str := fun t => t

/-- A conversion table agreeing with OpenCC t2s on the single span it
moves: the Traditional character for gate becomes its Simplified form. -/
def c1CexConv : Str → Str := fun t => if t = ['門'] then ['门'] else t

/-- An XML asset that begins with a byte-order mark, so its declaration is
not at offset zero: realistic input on which the declaration-restore branch
of convert_xml_content fires. -/
def c1CexContent : Str := "﻿<?xml version=\"1.0\"?>\n<r>門</r>".toList

/-- An external HTML rewriter that changes nothing (used where the HTML
path is irrelevant to the property under test). -/
def passHr : Str → Str × Bool := fun s => (s, false)

def c3Entry : ZEntry := ZEntry.mk "a.txt".toList ZMethod.deflated "hi".toList

/-- A valid archive stored under a name whose extension is upper case, so
that the suffix rewriting of convert_epub leaves the name unchanged. -/
def c3Fs : FS := [("book.EPUB".toList, FileData.zip [c3Entry])]

/-- A file that is not a valid zip container, under a well-formed name. -/
def c3wFs : FS := [("inv.epub".toList, FileData.bytes "junk".toList)]

def c4Fs : FS := [("b.epub".toList, FileData.zip [c3Entry])]

/-- On-disk byte size of a file.  A zip container always carries its 22-byte
end-of-central-directory record in addition to the bytes of its entries, so
the size of any archive file, even one with an empty entry list, is
positive. -/
def diskSize : FileData → Nat
  | .bytes s => s.length
  | .zip es => 22 + (es.map fun e => e.path.length + e.content.length).sum

/-- The post-packaging validation of convert_epub (the check at lines
144-153): the produced file must exist at the output path and have size
greater than zero.  The archive is never reopened and its entry listing is
never inspected. -/
def postPackageCheck (fs : FS) (outPath : Str) : Bool :=
  match lookupA fs outPath with
  | some d => decide (0 < diskSize d)
  | none => false

/-- The tail of convert_epub after the packaging call, on the branch of
package_epub_safely that shells out to the external zip executable: the tool
wrote `produced` (whatever bytes it produced) at the output path, packaging
reports success when the file exists (line 400 returns
os.path.exists(output_path)), and the run then returns the verdict of the
post-packaging validation. -/
def convertEpubFinish (fs : FS) (outPath : Str) (produced : FileData) : Bool :=
  let fs2 := setA fs outPath produced
  (lookupA fs2 outPath).isSome && postPackageCheck fs2 outPath

/-- A produced archive that lists no type-marker entry at all, as the
external zip tool can leave behind when its first invocation fails. -/
def c4CexEntries : List ZEntry :=
  [ZEntry.mk "OEBPS/a.xhtml".toList ZMethod.deflated "x".toList]

def c4CexFs : FS := [("b.epub".toList, FileData.zip [c3Entry])]

/-- A rewrite procedure raising on one specific asset content and carrying
a partly rewritten file state in its error. -/
def c5Proc : Str → Str → Except Str (Str × Bool) := fun _ c =>
  if c = "bad".toList then .error "partly".toList else .ok (c, false)

/-! ## Claim C6 -/

/-- Whitespace, digits, and ordinary ASCII punctuation: the class a natural
reading of the claim assigns to the skipped runs.  It includes parentheses
and the other common punctuation marks, not only the six characters of the
source regex. -/
def isClaimSkipChar (c : Char) : Bool :=
  isPySpace c || c.isDigit || c ∈ "()*+,-./:;=?@^_~!#$%&".toList

def c6Conv : Str → Str := fun t => if t = "(1)".toList then ['x'] else t

/-! ## Claim C7 -/

def c7Tree : WTree := [(containerName, "c".toList),
  ("META-INF/encryption.xml".toList, "e".toList)]

def c8Doc : HForest :=
  .cons (.elem "p".toList [] (.cons (.text "hi".toList) .nil)) .nil

/-! ## Claim C9 -/

def c9Tree : WTree := [("OEBPS/book.opf".toList, "x".toList)]

def c9wTree : WTree := [(mimetypeName, fixedMime), ("OEBPS/book.opf".toList, "x".toList)]

def c10Tree : WTree := [(mimetypeName, "text/plain".toList)]

/-! ## List helper lemmas -/

theorem dropWhile_length_le (p : Char → Bool) (l : Str) :
    (l.dropWhile p).length ≤ l.length := by
  induction l with
  | nil => simp [List.dropWhile]
  | cons a l ih =>
    by_cases h : p a
    · simp [List.dropWhile, h]
      omega
    · simp [List.dropWhile, h]

theorem tail_length_le (l : Str) : l.tail.length ≤ l.length := by
  cases l <;> simp

theorem head?_some_cons (l : Str) (a : Char) (h : l.head? = some a) :
    l = a :: l.tail := by
  cases l <;> simp_all

theorem takeWhile_all (p : Char → Bool) (l : Str) :
    (l.takeWhile p).all p = true := by
  induction l with
  | nil => simp [List.takeWhile]
  | cons a l ih =>
    by_cases h : p a <;> simp [List.takeWhile, h, ih]

theorem takeWhile_append_of_all (p : Char → Bool) (u v : Str)
    (h : u.all p = true) : (u ++ v).takeWhile p = u ++ v.takeWhile p := by
  induction u with
  | nil => simp
  | cons a u ih =>
    simp only [List.all_cons, Bool.and_eq_true] at h
    simp [List.takeWhile, h.1, ih h.2]

theorem dropWhile_append_of_all (p : Char → Bool) (u v : Str)
    (h : u.all p = true) : (u ++ v).dropWhile p = v.dropWhile p := by
  induction u with
  | nil => simp
  | cons a u ih =>
    simp only [List.all_cons, Bool.and_eq_true] at h
    simp [List.dropWhile, h.1, ih h.2]

theorem takeWhile_nil_of_head_fails (p : Char → Bool) (l : Str) (a : Char)
    (h1 : l.head? = some a) (h2 : p a = false) : l.takeWhile p = [] := by
  cases l with
  | nil => simp at h1
  | cons b l => simp_all [List.takeWhile]

theorem dropWhile_self_of_head_fails (p : Char → Bool) (l : Str) (a : Char)
    (h1 : l.head? = some a) (h2 : p a = false) : l.dropWhile p = l := by
  cases l with
  | nil => simp at h1
  | cons b l => simp_all [List.dropWhile]

theorem dropWhile_head_fails (p : Char → Bool) (l : Str) (a : Char)
    (h : (l.dropWhile p).head? = some a) : p a = false := by
  induction l with
  | nil => simp [List.dropWhile] at h
  | cons b l ih =>
    by_cases hb : p b
    · exact ih (by simpa [List.dropWhile, hb] using h)
    · have hba : b = a := by simpa [List.dropWhile, hb] using h
      subst hba
      exact Bool.eq_false_iff.mpr hb

theorem list_map_id_of {α : Type} (g : α → α) (l : List α)
    (h : ∀ a ∈ l, g a = a) : l.map g = l := by
  induction l with
  | nil => rfl
  | cons a l ih =>
    simp only [List.map_cons, h a (by simp)]
    rw [ih fun b hb => h b (by simp [hb])]

theorem noAngle_false_iff (a : Char) : noAngle a = false ↔ (a = '<' ∨ a = '>') := by
  simp [noAngle]
  tauto

theorem xmlSplitGo_irrel : ∀ (n m : Nat) (cs : Str), cs.length ≤ n → cs.length ≤ m →
    xmlSplitGo n cs = xmlSplitGo m cs := by
  intro n
  induction n with
  | zero =>
    intro m cs h1 _
    have hnil : cs = [] := List.length_eq_zero.mp (Nat.le_zero.mp h1)
    subst hnil
    cases m <;> rfl
  | succ n ih =>
    intro m cs h1 h2
    cases cs with
    | nil => cases m <;> rfl
    | cons c rest =>
      cases m with
      | zero => simp at h2
      | succ m =>
        have hr : rest.length ≤ n := by simpa using h1
        have hr2 : rest.length ≤ m := by simpa using h2
        have ht : ((rest.dropWhile noAngle).tail).length ≤ rest.length :=
          le_trans (tail_length_le _) (dropWhile_length_le _ _)
        by_cases hc : c = '>'
        · subst hc
          have e1 : xmlSplitGo (n + 1) ('>' :: rest) =
              if xmlMatchCond rest then
                XPiece.grp (rest.takeWhile noAngle) :: xmlSplitGo n (rest.dropWhile noAngle).tail
              else XPiece.raw ['>'] :: xmlSplitGo n rest := rfl
          have e2 : xmlSplitGo (m + 1) ('>' :: rest) =
              if xmlMatchCond rest then
                XPiece.grp (rest.takeWhile noAngle) :: xmlSplitGo m (rest.dropWhile noAngle).tail
              else XPiece.raw ['>'] :: xmlSplitGo m rest := rfl
          rw [e1, e2]
          by_cases hm : xmlMatchCond rest
          · rw [if_pos hm, if_pos hm, ih m _ (le_trans ht hr) (le_trans ht hr2)]
          · rw [if_neg hm, if_neg hm, ih m rest hr hr2]
        · simp only [xmlSplitGo, if_neg hc]
          rw [ih m rest hr hr2]

theorem xmlSplit_cons_of_ne (c : Char) (cs : Str) (h : c ≠ '>') :
    xmlSplit (c :: cs) = .raw [c] :: xmlSplit cs := by
  show xmlSplitGo (cs.length + 1) (c :: cs) = _
  simp only [xmlSplitGo, if_neg h]
  rfl

theorem xmlSplit_gt_match (rest : Str) (h : xmlMatchCond rest) :
    xmlSplit ('>' :: rest) =
      .grp (rest.takeWhile noAngle) :: xmlSplit (rest.dropWhile noAngle).tail := by
  show xmlSplitGo (rest.length + 1) ('>' :: rest) = _
  simp only [xmlSplitGo, if_pos rfl, if_pos h]
  rw [xmlSplitGo_irrel rest.length ((rest.dropWhile noAngle).tail).length _
    (le_trans (tail_length_le _) (dropWhile_length_le _ _)) le_rfl]
  rfl

theorem xmlSplit_gt_nomatch (rest : Str) (h : ¬ xmlMatchCond rest) :
    xmlSplit ('>' :: rest) = .raw ['>'] :: xmlSplit rest := by
  show xmlSplitGo (rest.length + 1) ('>' :: rest) = _
  simp only [xmlSplitGo, if_pos rfl, if_neg h]
  rfl

theorem joinPieces_nil : joinPieces [] = [] := rfl

theorem joinPieces_cons (p : XPiece) (ps : List XPiece) :
    joinPieces (p :: ps) = pieceStr p ++ joinPieces ps := rfl

/-- The scan is a decomposition of the input: re-concatenating the pieces
gives the input back. -/
theorem joinPieces_xmlSplit : ∀ cs : Str, joinPieces (xmlSplit cs) = cs := by
  suffices h : ∀ (n : Nat) (cs : Str), cs.length ≤ n → joinPieces (xmlSplit cs) = cs from
    fun cs => h cs.length cs le_rfl
  intro n
  induction n with
  | zero =>
    intro cs h
    have hnil : cs = [] := List.length_eq_zero.mp (Nat.le_zero.mp h)
    subst hnil; rfl
  | succ n ih =>
    intro cs hcs
    cases cs with
    | nil => rfl
    | cons c rest =>
      have hr : rest.length ≤ n := by simpa using hcs
      by_cases hc : c = '>'
      · subst hc
        by_cases hm : xmlMatchCond rest
        · have ht : ((rest.dropWhile noAngle).tail).length ≤ n :=
            le_trans (le_trans (tail_length_le _) (dropWhile_length_le _ _)) hr
          rw [xmlSplit_gt_match rest hm, joinPieces_cons, ih _ ht]
          have hdw : rest.dropWhile noAngle = '<' :: (rest.dropWhile noAngle).tail :=
            head?_some_cons _ _ hm.2
          show '>' :: (rest.takeWhile noAngle ++ ['<']) ++ (rest.dropWhile noAngle).tail
              = '>' :: rest
          simp only [List.cons_append, List.append_assoc, List.singleton_append,
            List.nil_append]
          rw [← hdw, List.takeWhile_append_dropWhile]
        · rw [xmlSplit_gt_nomatch rest hm, joinPieces_cons, ih _ hr]
          rfl
      · rw [xmlSplit_cons_of_ne c rest hc, joinPieces_cons, ih _ hr]
        rfl

theorem xmlSub_nil (f : Str → Str) : xmlSub f [] = [] := rfl

theorem xmlSub_cons_of_ne (f : Str → Str) (c : Char) (cs : Str) (h : c ≠ '>') :
    xmlSub f (c :: cs) = c :: xmlSub f cs := by
  unfold xmlSub
  rw [xmlSplit_cons_of_ne c cs h]
  simp [pieceOut, pieceStr, joinPieces_cons]

theorem xmlSub_gt_match (f : Str → Str) (rest : Str) (h : xmlMatchCond rest) :
    xmlSub f ('>' :: rest) =
      '>' :: (groupOut f (rest.takeWhile noAngle) ++
        '<' :: xmlSub f (rest.dropWhile noAngle).tail) := by
  unfold xmlSub
  rw [xmlSplit_gt_match rest h]
  simp [pieceOut, pieceStr, joinPieces_cons]

theorem xmlSub_gt_nomatch (f : Str → Str) (rest : Str) (h : ¬ xmlMatchCond rest) :
    xmlSub f ('>' :: rest) = '>' :: xmlSub f rest := by
  unfold xmlSub
  rw [xmlSplit_gt_nomatch rest h]
  simp [pieceOut, pieceStr, joinPieces_cons]

theorem skel_nil : skel [] = [] := rfl

theorem skel_cons_of_ne (c : Char) (cs : Str) (h : c ≠ '>') :
    skel (c :: cs) = c :: skel cs := by
  unfold skel
  rw [xmlSplit_cons_of_ne c cs h]
  simp [blankPiece, pieceStr, joinPieces_cons]

theorem skel_gt_match (rest : Str) (h : xmlMatchCond rest) :
    skel ('>' :: rest) = '>' :: '<' :: skel (rest.dropWhile noAngle).tail := by
  unfold skel
  rw [xmlSplit_gt_match rest h]
  simp [blankPiece, pieceStr, joinPieces_cons]

theorem skel_gt_nomatch (rest : Str) (h : ¬ xmlMatchCond rest) :
    skel ('>' :: rest) = '>' :: skel rest := by
  unfold skel
  rw [xmlSplit_gt_nomatch rest h]
  simp [blankPiece, pieceStr, joinPieces_cons]

theorem all_noAngle_ne_gt {u : Str} (h : u.all noAngle = true) :
    ∀ c ∈ u, c ≠ '>' := by
  intro c hc
  have := List.all_eq_true.mp h c hc
  simp [noAngle] at this
  exact this.2

theorem xmlSub_append_of_no_gt (f : Str → Str) (u cs : Str)
    (h : ∀ c ∈ u, c ≠ '>') : xmlSub f (u ++ cs) = u ++ xmlSub f cs := by
  induction u with
  | nil => simp
  | cons a u ih =>
    rw [List.cons_append, xmlSub_cons_of_ne f a _ (h a (by simp)),
      ih fun c hc => h c (by simp [hc])]
    rfl

theorem skel_append_of_no_gt (u cs : Str)
    (h : ∀ c ∈ u, c ≠ '>') : skel (u ++ cs) = u ++ skel cs := by
  induction u with
  | nil => simp
  | cons a u ih =>
    rw [List.cons_append, skel_cons_of_ne a _ (h a (by simp)),
      ih fun c hc => h c (by simp [hc])]
    rfl

theorem xmlSub_head? (f : Str → Str) (cs : Str) :
    (xmlSub f cs).head? = cs.head? := by
  cases cs with
  | nil => rfl
  | cons c rest =>
    by_cases hc : c = '>'
    · subst hc
      by_cases hm : xmlMatchCond rest
      · rw [xmlSub_gt_match f rest hm]; rfl
      · rw [xmlSub_gt_nomatch f rest hm]; rfl
    · rw [xmlSub_cons_of_ne f c rest hc]; rfl

/-- Behaviour of the skeleton at a ">" followed by an angle-free run that
ends at a "<": the run is blanked regardless of its content (also when it
is empty). -/
theorem skel_gt_run (u x : Str) (hu : u.all noAngle = true) :
    skel ('>' :: (u ++ '<' :: x)) = '>' :: '<' :: skel x := by
  have htw : (u ++ '<' :: x).takeWhile noAngle = u := by
    rw [takeWhile_append_of_all noAngle u _ hu]
    simp [List.takeWhile, noAngle]
  have hdw : (u ++ '<' :: x).dropWhile noAngle = '<' :: x := by
    rw [dropWhile_append_of_all noAngle u _ hu]
    simp [List.dropWhile, noAngle]
  by_cases hne : u = []
  · subst hne
    have hnm : ¬ xmlMatchCond ('<' :: x) := by
      intro hmc
      have := hmc.1
      simp [List.takeWhile, noAngle] at this
    rw [List.nil_append, skel_gt_nomatch _ hnm, skel_cons_of_ne '<' x (by decide)]
  · have hm : xmlMatchCond (u ++ '<' :: x) := by
      constructor
      · rw [htw]; exact hne
      · rw [hdw]; rfl
    rw [skel_gt_match _ hm, hdw]
    rfl

/-- Core preservation result for the XML rewriting path: as long as the
conversion table maps angle-free spans to angle-free spans, the substitution
changes nothing outside the matched runs -- the markup skeleton of the result
equals the markup skeleton of the input. -/
theorem skel_xmlSub (f : Str → Str)
    (hf : ∀ t : Str, t.all noAngle = true → (f t).all noAngle = true) :
    ∀ cs : Str, skel (xmlSub f cs) = skel cs := by
  suffices h : ∀ (n : Nat) (cs : Str), cs.length ≤ n → skel (xmlSub f cs) = skel cs from
    fun cs => h cs.length cs le_rfl
  intro n
  induction n with
  | zero =>
    intro cs h
    have hnil : cs = [] := List.length_eq_zero.mp (Nat.le_zero.mp h)
    subst hnil; rfl
  | succ n ih =>
    intro cs hcs
    cases cs with
    | nil => rfl
    | cons c rest =>
      have hr : rest.length ≤ n := by simpa using hcs
      by_cases hc : c = '>'
      case neg =>
        rw [xmlSub_cons_of_ne f c rest hc, skel_cons_of_ne c _ hc,
          skel_cons_of_ne c rest hc, ih rest hr]
      case pos =>
        subst hc
        by_cases hm : xmlMatchCond rest
        · have ht : ((rest.dropWhile noAngle).tail).length ≤ n :=
            le_trans (le_trans (tail_length_le _) (dropWhile_length_le _ _)) hr
          have htw_all : (rest.takeWhile noAngle).all noAngle = true :=
            takeWhile_all noAngle rest
          have hu : (groupOut f (rest.takeWhile noAngle)).all noAngle = true := by
            unfold groupOut
            by_cases h1 : codeSkippable (rest.takeWhile noAngle)
            · rw [if_pos h1]; exact htw_all
            · rw [if_neg h1]
              by_cases h2 : f (rest.takeWhile noAngle) = rest.takeWhile noAngle
              · rw [if_pos h2]; exact htw_all
              · rw [if_neg h2]; exact hf _ htw_all
          have hdw : rest.dropWhile noAngle = '<' :: (rest.dropWhile noAngle).tail :=
            head?_some_cons _ _ hm.2
          rw [xmlSub_gt_match f rest hm, skel_gt_run _ _ hu, ih _ ht]
          conv_rhs =>
            rw [show ('>' :: rest) =
              '>' :: (rest.takeWhile noAngle ++ '<' :: (rest.dropWhile noAngle).tail) from by
                rw [← hdw, List.takeWhile_append_dropWhile]]
          rw [skel_gt_run _ _ htw_all]
        · rw [xmlSub_gt_nomatch f rest hm]
          rcases Decidable.em (rest.takeWhile noAngle = []) with h0 | h0
          · cases hrest : rest with
            | nil => subst hrest; rfl
            | cons b l =>
              have hb : noAngle b = false := by
                cases hnb : noAngle b with
                | true => rw [hrest] at h0; simp [List.takeWhile, hnb] at h0
                | false => rfl
              subst hrest
              have hh : (xmlSub f (b :: l)).head? = some b := by
                rw [xmlSub_head?]; rfl
              have hnm2 : ¬ xmlMatchCond (xmlSub f (b :: l)) := by
                intro hmc
                have h3 := hmc.1
                rw [takeWhile_nil_of_head_fails noAngle _ b hh hb] at h3
                exact h3 rfl
              have hnm1 : ¬ xmlMatchCond (b :: l) := fun hmc => hmc.1 h0
              rw [skel_gt_nomatch _ hnm2, skel_gt_nomatch _ hnm1, ih _ hr]
          · have hr_split : rest = rest.takeWhile noAngle ++ rest.dropWhile noAngle :=
              (List.takeWhile_append_dropWhile (p := noAngle) (l := rest)).symm
            have htw_all : (rest.takeWhile noAngle).all noAngle = true :=
              takeWhile_all noAngle rest
            have htw_ne : ∀ c ∈ rest.takeWhile noAngle, c ≠ '>' :=
              all_noAngle_ne_gt htw_all
            have hsub : xmlSub f rest =
                rest.takeWhile noAngle ++ xmlSub f (rest.dropWhile noAngle) := by
              conv_lhs => rw [hr_split]
              exact xmlSub_append_of_no_gt f _ _ htw_ne
            cases hhr : (rest.dropWhile noAngle).head? with
            | none =>
              have hrnil : rest.dropWhile noAngle = [] := by
                cases hdrop : rest.dropWhile noAngle with
                | nil => rfl
                | cons a as => rw [hdrop] at hhr; simp at hhr
              have hrt : rest = rest.takeWhile noAngle := by
                conv_lhs => rw [hr_split]
                rw [hrnil, List.append_nil]
              have hxs : xmlSub f rest = rest.takeWhile noAngle := by
                rw [hsub, hrnil, xmlSub_nil, List.append_nil]
              rw [hxs]
              conv_rhs => rw [hrt]
            | some a =>
              have ha : noAngle a = false := dropWhile_head_fails noAngle rest a hhr
              have ha2 : a = '>' := by
                rcases (noAngle_false_iff a).mp ha with h | h
                · exact absurd ⟨h0, by rw [hhr, h]⟩ hm
                · exact h
              have hhsub : (xmlSub f (rest.dropWhile noAngle)).head? = some '>' := by
                rw [xmlSub_head?, hhr, ha2]
              have hnm2 : ¬ xmlMatchCond
                  (rest.takeWhile noAngle ++ xmlSub f (rest.dropWhile noAngle)) := by
                intro hmc
                have h3 := hmc.2
                rw [dropWhile_append_of_all noAngle _ _ htw_all,
                  dropWhile_self_of_head_fails noAngle _ '>' hhsub (by decide), hhsub] at h3
                simp at h3
              rw [hsub, skel_gt_nomatch _ hnm2, skel_gt_nomatch _ hm]
              rw [skel_append_of_no_gt _ _ htw_ne,
                ih _ (le_trans (dropWhile_length_le noAngle rest) hr)]
              conv_rhs => rw [hr_split, skel_append_of_no_gt _ _ htw_ne]

theorem grp_mem_xmlGroups (cs : Str) (t : Str) (h : XPiece.grp t ∈ xmlSplit cs) :
    t ∈ xmlGroups cs := by
  unfold xmlGroups
  exact List.mem_filterMap.mpr ⟨XPiece.grp t, h, rfl⟩

/-- Every matched group of the scan is nonempty. -/
theorem xmlGroups_ne_nil (cs : Str) : ∀ t ∈ xmlGroups cs, t ≠ [] := by
  suffices h : ∀ (n : Nat) (cs : Str) (t : Str), XPiece.grp t ∈ xmlSplitGo n cs → t ≠ [] by
    intro t ht
    unfold xmlGroups at ht
    obtain ⟨p, hp, he⟩ := List.mem_filterMap.mp ht
    cases p with
    | raw u => simp at he
    | grp u =>
      simp at he
      exact he ▸ h cs.length cs u hp
  intro n
  induction n with
  | zero => intro cs t h; simp [xmlSplitGo] at h
  | succ n ih =>
    intro cs t h
    cases cs with
    | nil => simp [xmlSplitGo] at h
    | cons c rest =>
      by_cases hc : c = '>'
      · subst hc
        by_cases hm : xmlMatchCond rest
        · have e1 : xmlSplitGo (n + 1) ('>' :: rest) =
              XPiece.grp (rest.takeWhile noAngle) :: xmlSplitGo n (rest.dropWhile noAngle).tail := by
            show (if ('>' : Char) = '>' then _ else _) = _
            rw [if_pos rfl, if_pos hm]
          rw [e1] at h
          rcases List.mem_cons.mp h with h | h
          · have : t = rest.takeWhile noAngle := by
              cases h; rfl
            rw [this]; exact hm.1
          · exact ih _ t h
        · have e1 : xmlSplitGo (n + 1) ('>' :: rest) =
              XPiece.raw ['>'] :: xmlSplitGo n rest := by
            show (if ('>' : Char) = '>' then _ else _) = _
            rw [if_pos rfl, if_neg hm]
          rw [e1] at h
          rcases List.mem_cons.mp h with h | h
          · simp at h
          · exact ih _ t h
      · have e1 : xmlSplitGo (n + 1) (c :: rest) =
            XPiece.raw [c] :: xmlSplitGo n rest := by
          show (if c = '>' then _ else _) = _
          rw [if_neg hc]
        rw [e1] at h
        rcases List.mem_cons.mp h with h | h
        · simp at h
        · exact ih _ t h

/-- When the conversion table is the identity on every matched group on
which conversion is attempted, the substitution is the identity. -/
theorem xmlSub_eq_self_of_groups (f : Str → Str) (cs : Str)
    (h : ∀ t ∈ xmlGroups cs, codeSkippable t = false → f t = t) :
    xmlSub f cs = cs := by
  unfold xmlSub
  rw [list_map_id_of (pieceOut f) (xmlSplit cs) ?_, joinPieces_xmlSplit]
  intro p hp
  cases p with
  | raw u => rfl
  | grp t =>
    have hg : t ∈ xmlGroups cs := grp_mem_xmlGroups cs t hp
    show XPiece.grp (groupOut f t) = XPiece.grp t
    unfold groupOut
    by_cases h1 : codeSkippable t
    · rw [if_pos h1]
    · rw [if_neg h1, if_pos (h t hg (Bool.eq_false_iff.mpr h1))]

/-! ## Lemmas on the file-system and tree primitives -/

theorem lookupA_setA_eq {ν : Type} (m : List (Str × ν)) (p : Str) (v : ν) :
    lookupA (setA m p v) p = some v := by
  induction m with
  | nil => simp [setA, lookupA]
  | cons a rest ih =>
    obtain ⟨q, d⟩ := a
    by_cases h : q = p
    · simp [setA, lookupA, h]
    · simp [setA, lookupA, h, ih]

theorem lookupA_setA_ne {ν : Type} (m : List (Str × ν)) (p k : Str) (v : ν)
    (h : k ≠ p) : lookupA (setA m p v) k = lookupA m k := by
  have hp : p ≠ k := Ne.symm h
  induction m with
  | nil => simp [setA, lookupA, hp]
  | cons a rest ih =>
    obtain ⟨q, d⟩ := a
    by_cases hq : q = p
    · subst hq
      simp [setA, lookupA, hp]
    · simp [setA, lookupA, hq, ih]

/-! ## Lemmas on the packager -/

theorem packageEpub_head (tree : WTree) : (packageEpub tree).head? = some mimeEntry := rfl

theorem packageEpub_tail_method (tree : WTree) (e : ZEntry)
    (h : e ∈ (packageEpub tree).tail) :
    e.method = ZMethod.stored ↔ e.path = containerName := by
  unfold packageEpub at h
  simp only [List.tail_cons] at h
  obtain ⟨a, _, he⟩ := List.mem_map.mp h
  subst he
  by_cases hc : a.1 = containerName
  · simp [hc]
  · simp [hc]

/-! ## Lemmas on prefix testing and leftmost search -/

theorem isPrefixOf_append_left (pat w r : Str) (h : pat.length ≤ w.length) :
    pat.isPrefixOf (w ++ r) = pat.isPrefixOf w := by
  induction pat generalizing w with
  | nil => simp [List.isPrefixOf]
  | cons a pt ih =>
    cases w with
    | nil => simp at h
    | cons b wt =>
      simp only [List.cons_append, List.isPrefixOf, List.append_eq]
      rw [ih wt (by simpa using h)]

theorem isPrefixOf_self_append (pat r : Str) : pat.isPrefixOf (pat ++ r) = true := by
  induction pat with
  | nil => simp [List.isPrefixOf]
  | cons a pt ih => simp [List.isPrefixOf, ih]

theorem scanFirstL_append_none (m : Str → Option Str) (u rest : Str)
    (h : ∀ w ∈ u.tails, w ≠ [] → m (w ++ rest) = none) :
    scanFirstL m (u ++ rest) = scanFirstL m rest := by
  induction u with
  | nil => simp
  | cons c u ih =>
    have hm : m ((c :: u) ++ rest) = none := by
      refine h (c :: u) ?_ (by simp)
      rw [List.tails_cons]
      exact List.mem_cons_self _ _
    rw [List.cons_append]
    rw [List.cons_append] at hm
    simp only [scanFirstL, hm]
    exact ih fun w hw hne => h w (by rw [List.tails_cons]; exact List.mem_cons_of_mem _ hw) hne

/-- The locator regex, run over a synthesized container.xml, recovers
exactly the spliced opf path, provided the path is nonempty and free of
double quotes (any file-system path is). -/
theorem fullPathSearch_container (p : Str) (hne : p ≠ [])
    (hq : p.all (fun c => c != '"') = true) :
    fullPathSearch (containerXmlContent p) = some p := by
  have hall : containerTemplateA.tails.all
      (fun w => w.isEmpty || !(fpLit.isPrefixOf (w ++ fpLit))) = true := by decide
  have hassoc : containerXmlContent p =
      containerTemplateA ++ (fpLit ++ (p ++ containerTemplateB)) := by
    unfold containerXmlContent
    simp [List.append_assoc]
  have hmat : fpMatchAt (fpLit ++ (p ++ containerTemplateB)) = some p := by
    unfold fpMatchAt
    rw [isPrefixOf_self_append]
    simp only [if_pos rfl, List.drop_left]
    have hbody : (p ++ containerTemplateB).takeWhile (fun c => c != '"') = p := by
      rw [takeWhile_append_of_all _ _ _ hq]
      have : containerTemplateB.takeWhile (fun c => c != '"') = [] := by decide
      rw [this, List.append_nil]
    rw [hbody]
    have hdropb : (p ++ containerTemplateB).drop p.length = containerTemplateB :=
      List.drop_left p containerTemplateB
    have hcond : p ≠ [] ∧ ((p ++ containerTemplateB).drop p.length).head? = some '"' :=
      ⟨hne, by rw [hdropb]; decide⟩
    rw [if_pos hcond]
    simp
  have hnone : ∀ w ∈ containerTemplateA.tails, w ≠ [] →
      fpMatchAt (w ++ (fpLit ++ (p ++ containerTemplateB))) = none := by
    intro w hw hne2
    have hlen : fpLit.length ≤ (w ++ fpLit).length := by
      simp
    have hpre : fpLit.isPrefixOf (w ++ (fpLit ++ (p ++ containerTemplateB))) =
        fpLit.isPrefixOf (w ++ fpLit) := by
      rw [show w ++ (fpLit ++ (p ++ containerTemplateB)) =
        (w ++ fpLit) ++ (p ++ containerTemplateB) from (List.append_assoc _ _ _).symm,
        isPrefixOf_append_left _ _ _ hlen]
    have hfp : fpLit.isPrefixOf (w ++ fpLit) = false := by
      have h1 := List.all_eq_true.mp hall w hw
      rcases Bool.or_eq_true_iff.mp h1 with h2 | h2
      · exact absurd (List.isEmpty_iff.mp h2) hne2
      · simpa using h2
    have hfalse : fpLit.isPrefixOf (w ++ (fpLit ++ (p ++ containerTemplateB))) = false :=
      hpre.trans hfp
    unfold fpMatchAt
    rw [hfalse]
    simp
  rw [hassoc]
  unfold fullPathSearch
  rw [scanFirstL_append_none fpMatchAt containerTemplateA _ hnone]
  show scanFirstL fpMatchAt ('f' :: ("ull-path=\"".toList ++ (p ++ containerTemplateB))) = some p
  simp only [scanFirstL]
  rw [show ('f' :: ("ull-path=\"".toList ++ (p ++ containerTemplateB))) =
    fpLit ++ (p ++ containerTemplateB) from rfl, hmat]

/-- validate_epub_structure on a tree that has the type marker, lacks the
locator, and holds at least one opf file: the locator is synthesized from
the first discovered opf path and validity is returned. -/
theorem validateStructure_synth (tree : WTree) (mm p : Str) (rest : List Str)
    (hm : lookupA tree mimetypeName = some mm)
    (hc : lookupA tree containerName = none)
    (hopf : (tree.map Prod.fst).filter isOpfPath = p :: rest) :
    validateStructure tree = (setA tree containerName (containerXmlContent p), true) := by
  unfold validateStructure
  rw [hm, hc, hopf]
  simp

/-! ## Unfolding equations for convert_epub -/

theorem convertEpub_none (f : Str → Str) (hr : Str → Str × Bool) (fs : FS) (input : Str)
    (hin : lookupA fs input = none) : convertEpub f hr fs input = ⟨fs, false⟩ := by
  unfold convertEpub
  rw [hin]

theorem convertEpub_bytes (f : Str → Str) (hr : Str → Str × Bool) (fs : FS) (input : Str)
    (s : Str) (hin : lookupA fs input = some (.bytes s)) :
    convertEpub f hr fs input =
      ⟨if (lookupA fs (backupName input)).isSome then fs
        else setA fs (backupName input) (.bytes s), false⟩ := by
  unfold convertEpub
  rw [hin]

theorem convertEpub_zip (f : Str → Str) (hr : Str → Str × Bool) (fs : FS) (input : Str)
    (es : List ZEntry) (hin : lookupA fs input = some (.zip es)) :
    convertEpub f hr fs input =
      ⟨setA
        (if (lookupA fs (backupName input)).isSome then fs
          else setA fs (backupName input) (.zip es))
        (outName input)
        (.zip (packageEpub (ensureMimetype
          (convertAssets hr f (validateStructure (extractTree es)).1)))), true⟩ := by
  unfold convertEpub
  rw [hin]

/-! ## Claim C1 -/

/-- C1 counterexample: convert_xml_content does not always leave the markup
byte-identical.  On an asset whose XML declaration is preceded by a
byte-order mark, the changed content fails the startswith check and the
declaration is prepended a second time, so the output contains a processing
instruction the input markup does not have: the markup skeletons differ. -/
theorem claim1_cex :
    skel (convertXmlContent c1CexConv c1CexContent).content ≠ skel c1CexContent := by
  decide

/-- C1 (amended): only text strictly between a ">" and the next "<" may
change, with two provisos forced by the code.  For the XML path: provided
converted spans stay free of angle brackets and the declaration-restore
branch does not fire (no declaration is found, or the content starts with
one), the markup skeleton of the output equals that of the input.  For the
HTML path, a rewritten tree has the same tags, attributes and element
structure as the input tree (only text-node payloads change), and a text
node directly under a script or style element is returned unchanged with a
false flag. -/
theorem claim1_amended :
    (∀ (f : Str → Str) (cs : Str),
      (∀ t : Str, t.all noAngle = true → (f t).all noAngle = true) →
      (declSearch cs = none ∨ startsWithXml cs = true) →
      skel (convertXmlContent f cs).content = skel cs) ∧
    (∀ (f : Str → Str) (parent : Str) (d : HDoc),
      blankNode (rewriteNode f parent d).1 = blankNode d) ∧
    (∀ (f : Str → Str) (parent : Str) (s : Str), parent ∈ scriptStyle →
      rewriteNode f parent (.text s) = (.text s, false)) := by
  refine ⟨?_, fun f parent d => blank_rewriteNode f parent d, ?_⟩
  · intro f cs hf hd
    simp only [convertXmlContent]
    by_cases hch : xmlSub f cs = cs
    · rw [if_pos hch]
    · rw [if_neg hch]
      cases hds : declSearch cs with
      | none => exact skel_xmlSub f hf cs
      | some d =>
        rcases hd with hd | hd
        · rw [hds] at hd
          simp at hd
        · have hpre : ∃ rest : Str, cs = xmlDeclLit ++ rest := by
            have h1 : xmlDeclLit <+: cs := by
              have := hd
              unfold startsWithXml at this
              exact List.isPrefixOf_iff_prefix.mp this
            obtain ⟨rest, hrest⟩ := h1
            exact ⟨rest, hrest.symm⟩
          obtain ⟨rest, hrest⟩ := hpre
          have hsw : startsWithXml (xmlSub f cs) = true := by
            rw [hrest, xmlSub_append_of_no_gt f xmlDeclLit rest (by decide)]
            unfold startsWithXml
            exact isPrefixOf_self_append _ _
          simp only [hsw, if_true]
          exact skel_xmlSub f hf cs
  · intro f parent s hp
    simp [rewriteNode, hp]

/-- C1 witness: the amended statement applied to the identity table on a
concrete asset. -/
theorem claim1_witness :
    skel (convertXmlContent idConv "<r>ab</r>".toList).content = skel "<r>ab</r>".toList :=
  claim1_amended.1 idConv "<r>ab</r>".toList (fun _ ht => ht) (Or.inl (by decide))

/-! ## Claim C2 -/

/-- C2: in every archive the library packaging branch produces, the first
entry is named mimetype, is stored uncompressed, and carries exactly the
fixed marker bytes application/epub+zip, for every working tree. -/
theorem claim2_mimetype_first : ∀ tree : WTree,
    (packageEpub tree).head? = some (ZEntry.mk mimetypeName ZMethod.stored fixedMime) :=
  fun tree => packageEpub_head tree

/-! ## Claim C3 -/

/-- C3 counterexample: a source archive named with an upper-case extension
derives an output name equal to the input name, and a successful run then
overwrites the original archive in place, so the original is not left
byte-for-byte unmodified on every code path. -/
theorem claim3_cex :
    lookupA (convertEpub idConv passHr c3Fs "book.EPUB".toList).fs "book.EPUB".toList ≠
      lookupA c3Fs "book.EPUB".toList := by
  decide

/-- C3 (amended): provided the derived backup and output names differ from
the input name and from each other (which holds whenever the path contains
the lower-case extension .epub), convert_epub never modifies the input file
on any code path; if the backup path was absent it now holds a copy of the
source; and a source that is not a valid zip container makes the run return
failure. -/
theorem claim3_amended : ∀ (f : Str → Str) (hr : Str → Str × Bool) (fs : FS)
    (input : Str) (d : FileData),
    lookupA fs input = some d →
    backupName input ≠ input → outName input ≠ input → backupName input ≠ outName input →
    (lookupA (convertEpub f hr fs input).fs input = some d ∧
     (lookupA fs (backupName input) = none →
       lookupA (convertEpub f hr fs input).fs (backupName input) = some d) ∧
     (∀ s : Str, d = .bytes s → (convertEpub f hr fs input).ok = false)) := by
  intro f hr fs input d hin hb ho hbo
  have hfs1 : ∀ v : FileData, lookupA
      (if (lookupA fs (backupName input)).isSome then fs
        else setA fs (backupName input) v) input = lookupA fs input := by
    intro v
    by_cases hbk : (lookupA fs (backupName input)).isSome
    · rw [if_pos hbk]
    · rw [if_neg hbk, lookupA_setA_ne _ _ _ _ (Ne.symm hb)]
  have hfs1b : lookupA fs (backupName input) = none → ∀ v : FileData, lookupA
      (if (lookupA fs (backupName input)).isSome then fs
        else setA fs (backupName input) v) (backupName input) = some v := by
    intro hnone v
    have hbk : ¬ (lookupA fs (backupName input)).isSome = true := by simp [hnone]
    rw [if_neg hbk, lookupA_setA_eq]
  cases d with
  | bytes s =>
    rw [convertEpub_bytes f hr fs input s hin]
    refine ⟨?_, ?_, fun _ _ => rfl⟩
    · dsimp only
      rw [hfs1]
      exact hin
    · intro hnone
      dsimp only
      exact hfs1b hnone _
  | zip es =>
    rw [convertEpub_zip f hr fs input es hin]
    refine ⟨?_, ?_, fun s hs => FileData.noConfusion hs⟩
    · dsimp only
      rw [lookupA_setA_ne _ _ _ _ (Ne.symm ho), hfs1]
      exact hin
    · intro hnone
      dsimp only
      rw [lookupA_setA_ne _ _ _ _ hbo]
      exact hfs1b hnone _

/-- C3 witness: on an invalid zip container under a well-formed name, the
original is untouched, a backup copy exists afterwards, and the run fails. -/
theorem claim3_witness :
    lookupA (convertEpub idConv passHr c3wFs "inv.epub".toList).fs "inv.epub".toList =
      some (FileData.bytes "junk".toList) ∧
    lookupA (convertEpub idConv passHr c3wFs "inv.epub".toList).fs
      (backupName "inv.epub".toList) = some (FileData.bytes "junk".toList) ∧
    (convertEpub idConv passHr c3wFs "inv.epub".toList).ok = false :=
  ⟨(claim3_amended idConv passHr c3wFs "inv.epub".toList _ (by decide) (by decide)
      (by decide) (by decide)).1,
   (claim3_amended idConv passHr c3wFs "inv.epub".toList _ (by decide) (by decide)
      (by decide) (by decide)).2.1 (by decide),
   (claim3_amended idConv passHr c3wFs "inv.epub".toList _ (by decide) (by decide)
      (by decide) (by decide)).2.2 "junk".toList rfl⟩

/-! ## Claim C4 -/

/-- C4 counterexample: the pipeline does not check that the produced
archive lists the type-marker entry.  A produced archive containing no
mimetype entry at all (as the external zip tool can leave behind) passes
the post-packaging validation of lines 144-153 -- which only tests
existence and positive size -- and the run reports success rather than a
packaging failure. -/
theorem claim4_cex :
    c4CexEntries.all (fun e => e.path != mimetypeName) = true ∧
    convertEpubFinish c4CexFs "b_simplified.epub".toList (.zip c4CexEntries) = true := by
  decide

/-- C4 (amended): after packaging, the pipeline checks only that the
produced archive file exists and has size greater than zero; that verdict
depends solely on the on-disk size of whatever was produced and never on
its entry listing (first conjunct), so an output archive lacking the
type-marker entry still yields success.  What survives of the claim holds
on the library packaging branch by construction of the packager, not by any
check: there, a successful run always leaves an output archive that lists
the type-marker entry (second conjunct). -/
theorem claim4_amended :
    (∀ (fs : FS) (outPath : Str) (d : FileData),
      convertEpubFinish fs outPath d = true ↔ 0 < diskSize d) ∧
    (∀ (f : Str → Str) (hr : Str → Str × Bool) (fs : FS) (input : Str),
      (convertEpub f hr fs input).ok = true →
      ∃ es : List ZEntry,
        lookupA (convertEpub f hr fs input).fs (outName input) = some (.zip es) ∧
        ∃ e ∈ es, e.path = mimetypeName) := by
  constructor
  · intro fs outPath d
    simp only [convertEpubFinish, postPackageCheck, lookupA_setA_eq]
    simp
  · intro f hr fs input hok
    cases hin : lookupA fs input with
    | none =>
      rw [convertEpub_none f hr fs input hin] at hok
      simp at hok
    | some d =>
      cases d with
      | bytes s =>
        rw [convertEpub_bytes f hr fs input s hin] at hok
        simp at hok
      | zip es =>
        rw [convertEpub_zip f hr fs input es hin]
        dsimp only
        refine ⟨packageEpub _, lookupA_setA_eq _ _ _, mimeEntry, ?_, rfl⟩
        unfold packageEpub
        exact List.mem_cons_self _ _

/-- C4 witness: the size-only check passes on a concrete produced archive,
and a concrete successful library-branch run has the type-marker entry in
its output. -/
theorem claim4_witness :
    convertEpubFinish c4Fs "out.epub".toList (.zip [mimeEntry]) = true ∧
    ∃ es : List ZEntry,
      lookupA (convertEpub idConv passHr c4Fs "b.epub".toList).fs
        (outName "b.epub".toList) = some (.zip es) ∧
      ∃ e ∈ es, e.path = mimetypeName :=
  ⟨(claim4_amended.1 c4Fs "out.epub".toList (.zip [mimeEntry])).mpr (by decide),
   claim4_amended.2 idConv passHr c4Fs "b.epub".toList (by decide)⟩

/-! ## Claim C5 -/

/-- C5: the per-asset try/except of convert_epub.  An error raised by the
rewrite of one asset leaves that file holding exactly its original bytes
(whatever content the raise happened on is overwritten by the handler), the
error is absorbed rather than propagated, and the loop processes every
other asset exactly as it would have. -/
theorem claim5_restore :
    (∀ orig err : Str, applyAsset orig (.error err) = orig) ∧
    (∀ (proc : Str → Str → Except Str (Str × Bool)) (pre post : WTree) (nm c : Str),
      runAssets proc (pre ++ (nm, c) :: post) =
        runAssets proc pre ++ (nm, applyAsset c (proc nm c)) :: runAssets proc post) ∧
    (∀ (proc : Str → Str → Except Str (Str × Bool)) (nm c e : Str),
      proc nm c = .error e → applyAsset c (proc nm c) = c) := by
  refine ⟨fun _ _ => rfl, ?_, ?_⟩
  · intro proc pre post nm c
    unfold runAssets
    rw [List.map_append]
    rfl
  · intro proc nm c e he
    rw [he]
    rfl

/-- C5 witness: the restoration conjuncts applied at a concrete failing
asset. -/
theorem claim5_witness :
    applyAsset "b".toList (.error "e".toList) = "b".toList ∧
    applyAsset "bad".toList (c5Proc "x.xml".toList "bad".toList) = "bad".toList :=
  ⟨claim5_restore.1 "b".toList "e".toList,
   claim5_restore.2.2 c5Proc "x.xml".toList "bad".toList "partly".toList rfl⟩

/-- C6 counterexample: the run (1) consists only of punctuation and a
digit, yet the XML path attempts conversion on it (the source skip class
holds only six punctuation marks), and with a conversion table that moves
that span the run is not left byte-identical. -/
theorem claim6_cex :
    "(1)".toList.all isClaimSkipChar = true ∧
    xmlSub c6Conv "<r>(1)</r>".toList ≠ "<r>(1)</r>".toList := by
  decide

/-- C6 (amended): the substitution rewrites the input group by group in
place (first two conjuncts: the output is the join of the scanned pieces
with each group mapped, and joining the untouched pieces restores the
input), and every matched group consisting solely of whitespace, digits and
the six punctuation marks of the source class is left byte-identical with
no conversion attempted -- on the XML path.  On the HTML path there is no
such skip: any text node outside script and style is passed to the
converter regardless of its content, and changes whenever the converter
moves it. -/
theorem claim6_amended :
    (∀ (f : Str → Str) (cs : Str), xmlSub f cs = joinPieces ((xmlSplit cs).map (pieceOut f))) ∧
    (∀ cs : Str, joinPieces (xmlSplit cs) = cs) ∧
    (∀ (f : Str → Str) (cs : Str) (t : Str), t ∈ xmlGroups cs →
      t.all isCodeSkipChar = true → pieceOut f (.grp t) = .grp t) ∧
    (∀ (f : Str → Str) (parent s : Str), ¬ parent ∈ scriptStyle → ¬ f s = s →
      rewriteNode f parent (.text s) = (.text (f s), true)) := by
  refine ⟨fun _ _ => rfl, joinPieces_xmlSplit, ?_, ?_⟩
  · intro f cs t ht hall
    have hne : t ≠ [] := xmlGroups_ne_nil cs t ht
    have hsk : codeSkippable t = true := by
      unfold codeSkippable
      rw [Bool.and_eq_true]
      exact ⟨by simpa [List.isEmpty_iff] using hne, hall⟩
    show XPiece.grp (groupOut f t) = XPiece.grp t
    unfold groupOut
    rw [if_pos hsk]
  · intro f parent s hp hf
    simp [rewriteNode, hp, hf]

/-- C6 witness: a digit and punctuation run inside the source class is kept
on the XML path, and a text node is rewritten on the HTML path even though
its content is only punctuation and a digit. -/
theorem claim6_witness :
    pieceOut c6Conv (XPiece.grp "12, 5".toList) = XPiece.grp "12, 5".toList ∧
    rewriteNode c6Conv docRootTag (.text "(1)".toList) = (.text ['x'], true) := by
  refine ⟨claim6_amended.2.2.1 c6Conv "<a>12, 5</a>".toList "12, 5".toList (by decide) (by decide), ?_⟩
  have h := claim6_amended.2.2.2 c6Conv docRootTag "(1)".toList (by decide) (by decide)
  rw [h]
  rfl

/-- C7 counterexample: a file under META-INF other than container.xml is
written with the deflate method, so not every entry under the reserved
metadata directory is stored. -/
theorem claim7_cex :
    "META-INF/".toList.isPrefixOf "META-INF/encryption.xml".toList = true ∧
    ZEntry.mk "META-INF/encryption.xml".toList ZMethod.deflated "e".toList ∈
      packageEpub c7Tree ∧
    ZMethod.deflated ≠ ZMethod.stored := by
  decide

/-- C7 (amended): after the leading stored mimetype entry, an entry is
stored precisely when its path is META-INF/container.xml; every other
entry, including any other file under META-INF, is deflated. -/
theorem claim7_amended : ∀ tree : WTree,
    (packageEpub tree).head? = some mimeEntry ∧
    ∀ e ∈ (packageEpub tree).tail, (e.method = ZMethod.stored ↔ e.path = containerName) :=
  fun tree => ⟨packageEpub_head tree, fun e he => packageEpub_tail_method tree e he⟩

/-- C7 witness: the amended statement applied to a concrete tree at its
deflated META-INF entry. -/
theorem claim7_witness :
    (packageEpub c7Tree).head? = some mimeEntry ∧
    ((ZEntry.mk "META-INF/encryption.xml".toList ZMethod.deflated "e".toList).method =
        ZMethod.stored ↔
      (ZEntry.mk "META-INF/encryption.xml".toList ZMethod.deflated "e".toList).path =
        containerName) :=
  ⟨(claim7_amended c7Tree).1, (claim7_amended c7Tree).2 _ (by decide)⟩

/-! ## Claim C8 -/

/-- C8: when the conversion table is the identity on every eligible run,
both rewriting paths report unchanged.  On the XML path the file keeps its
original bytes (the content of the result equals the input and the flag is
false, so no write happens); on the HTML path the rewritten tree is the
input tree with a false flag, and the write-back of convert_html_content is
gated on that flag.  No exception arises: the result is an ordinary value. -/
theorem claim8_identity :
    (∀ (f : Str → Str) (cs : Str),
      (∀ t ∈ xmlGroups cs, codeSkippable t = false → f t = t) →
      convertXmlContent f cs = ⟨cs, false⟩) ∧
    (∀ (f : Str → Str) (doc : HForest),
      (∀ s ∈ eligTextsF docRootTag doc, f s = s) →
      convertHtmlDoc f doc = (doc, false)) := by
  constructor
  · intro f cs h
    have hsub : xmlSub f cs = cs := xmlSub_eq_self_of_groups f cs h
    simp only [convertXmlContent]
    rw [if_pos hsub]
  · intro f doc h
    exact rewriteForest_id_of_elig f docRootTag doc h

/-- C8 witness: identity conversion on a concrete XML asset and a concrete
document tree. -/
theorem claim8_witness :
    convertXmlContent idConv "<r>門</r>".toList = ⟨"<r>門</r>".toList, false⟩ ∧
    convertHtmlDoc idConv c8Doc = (c8Doc, false) :=
  ⟨claim8_identity.1 idConv "<r>門</r>".toList (fun _ _ _ => rfl),
   claim8_identity.2 idConv c8Doc (fun _ _ => rfl)⟩

/-- C9 counterexample: a working tree that lacks the mimetype file as well
as the locator, with exactly one opf file, makes validate_epub_structure
return validity at once without synthesizing any container.xml. -/
theorem claim9_cex :
    (c9Tree.map Prod.fst).filter isOpfPath = ["OEBPS/book.opf".toList] ∧
    lookupA c9Tree containerName = none ∧
    (validateStructure c9Tree).2 = true ∧
    lookupA (validateStructure c9Tree).1 containerName = none := by
  decide

/-- C9 (amended): on a working tree that does contain the mimetype file,
lacks META-INF/container.xml and holds exactly one opf file, the validator
synthesizes the locator with its full-path attribute equal to that opf
relative path and returns validity; and on any archive input the run goes
on to write the packaged output (validation never gates packaging). -/
theorem claim9_amended : ∀ (tree : WTree) (mm p : Str),
    lookupA tree mimetypeName = some mm →
    lookupA tree containerName = none →
    (tree.map Prod.fst).filter isOpfPath = [p] →
    p ≠ [] → p.all (fun c => c != '"') = true →
    (validateStructure tree = (setA tree containerName (containerXmlContent p), true) ∧
     fullPathSearch (containerXmlContent p) = some p ∧
     ∀ (f : Str → Str) (hr : Str → Str × Bool) (fs : FS) (input : Str) (es : List ZEntry),
       lookupA fs input = some (.zip es) →
       ((convertEpub f hr fs input).ok = true ∧
        lookupA (convertEpub f hr fs input).fs (outName input) ≠ none)) := by
  intro tree mm p hm hc hopf hne hq
  refine ⟨validateStructure_synth tree mm p [] hm hc hopf,
    fullPathSearch_container p hne hq, ?_⟩
  intro f hr fs input es hin
  rw [convertEpub_zip f hr fs input es hin]
  dsimp only
  refine ⟨rfl, ?_⟩
  rw [lookupA_setA_eq]
  simp

/-- C9 witness: synthesis on a concrete tree with the mimetype present and
one opf file, and the attribute read back equals the opf path. -/
theorem claim9_witness :
    validateStructure c9wTree =
      (setA c9wTree containerName (containerXmlContent "OEBPS/book.opf".toList), true) ∧
    fullPathSearch (containerXmlContent "OEBPS/book.opf".toList) =
      some "OEBPS/book.opf".toList :=
  ⟨(claim9_amended c9wTree fixedMime "OEBPS/book.opf".toList (by decide) (by decide)
      (by decide) (by decide) (by decide)).1,
   (claim9_amended c9wTree fixedMime "OEBPS/book.opf".toList (by decide) (by decide)
      (by decide) (by decide) (by decide)).2.1⟩

/-! ## Claim C10 -/

/-- C10: ensure_mimetype_file overwrites the mimetype file with the fixed
marker bytes no matter what it held before, and the packaged output of the
pipeline therefore always carries the fixed marker as its leading entry,
regardless of the type-marker content of the input archive. -/
theorem claim10_overwrite : ∀ (tree : WTree) (prev : Str),
    lookupA tree mimetypeName = some prev →
    (lookupA (ensureMimetype tree) mimetypeName = some fixedMime ∧
     (packageEpub (ensureMimetype tree)).head? = some mimeEntry ∧
     ∀ (f : Str → Str) (hr : Str → Str × Bool) (fs : FS) (input : Str) (es : List ZEntry),
       lookupA fs input = some (.zip es) →
       ∃ out : List ZEntry,
         lookupA (convertEpub f hr fs input).fs (outName input) = some (.zip out) ∧
         out.head? = some mimeEntry) := by
  intro tree prev hprev
  refine ⟨lookupA_setA_eq _ _ _, packageEpub_head _, ?_⟩
  intro f hr fs input es hin
  rw [convertEpub_zip f hr fs input es hin]
  dsimp only
  exact ⟨packageEpub _, lookupA_setA_eq _ _ _, packageEpub_head _⟩

/-- C10 witness: a tree whose mimetype file holds different bytes is
overwritten with the fixed marker and packaged with it first. -/
theorem claim10_witness :
    lookupA (ensureMimetype c10Tree) mimetypeName = some fixedMime ∧
    (packageEpub (ensureMimetype c10Tree)).head? = some mimeEntry :=
  ⟨(claim10_overwrite c10Tree "text/plain".toList (by decide)).1,
   (claim10_overwrite c10Tree "text/plain".toList (by decide)).2.1⟩

